import Mathlib

/-!
Verification of the Vortex incremental Merkle tree core.

The on-chain tree (contracts/sources/merkle_tree.move, paired appends, and the
historical single-leaf variant package/sources/merkle_tree.move) is embedded as
pure functions over a state record; a Move abort is modelled as none.  The
Poseidon hash is an external primitive, so every result is parameterized over a
hash function h and the level-0 empty-leaf value z0.  The off-chain rebuild
(services/merkle-tree.ts) calls the external fixed-merkle-tree package through
the sdk; that dense tree is modelled from the spec as the root of the complete
binary tree over the ordered leaf list with empty subtrees standing for the
precomputed zero hashes.
-/

namespace Vortex

/-- BN254 scalar field modulus (bn254_field_modulus in vortex_constants). -/
def P : Nat := 21888242871839275222246405745257275088548364400416034343698204186575808495617

/-- ROOT_HISTORY_SIZE constant of merkle_tree.move. -/
def ROOT_HISTORY_SIZE : Nat := 100

/-- HEIGHT constant of merkle_tree.move; the operations below take the height as
an explicit parameter and this is the canonical instantiation. -/
def HEIGHT : Nat := 26

/-- empty_subtree_hashes table, modelled by its generating recursion (documented
in package/sources/merkle_tree.move): level 0 is the empty-leaf value z0 and
level i+1 is the hash of level i with itself. -/
def zeroHash (h : Nat → Nat → Nat) (z0 : Nat) : Nat → Nat
| 0 => z0
| i + 1 => h (zeroHash h z0 i) (zeroHash h z0 i)

/-- State of the on-chain MerkleTree object; the sui Table keyed by slot number
is modelled as a map into Option. -/
structure MerkleTree where
  next_index : Nat
  subtrees : List Nat
  root_history : Nat → Option Nat
  root_index : Nat

/-- poseidon2 of contracts/sources/merkle_tree.move: reduces both inputs modulo
the field and hashes; it never aborts. -/
def poseidon2 (h : Nat → Nat → Nat) (a b : Nat) : Nat := h (a % P) (b % P)

/-- new of contracts/sources/merkle_tree.move: next_index 0, subtrees holding
the zero hash of every level below height, slot 0 of the history holding the
zero hash of the full height, root_index 0. -/
def new (h : Nat → Nat → Nat) (z0 height : Nat) : MerkleTree :=
  ⟨0, (List.range height).map (zeroHash h z0),
   fun j => if j = 0 then some (zeroHash h z0 height) else none, 0⟩

/-- Loop body of append_pair over the listed levels (u64.range_do from 1 to
height - 1): even positions cache the hash as the new filled subtree and pair
it with the zero hash, odd positions pair the cached subtree with the hash.  A
vector index out of bounds is an abort (none). -/
def appendLevels (h : Nat → Nat → Nat) (z : Nat → Nat) :
    List Nat → List Nat → Nat → Nat → Option (List Nat × Nat)
| [], subs, hash, _ => some (subs, hash)
| i :: rest, subs, hash, idx =>
  if i < subs.length then
    if idx % 2 = 0 then
      appendLevels h z rest (subs.set i hash) (poseidon2 h hash (z i)) (idx / 2)
    else
      appendLevels h z rest subs (poseidon2 h (subs.getD i 0) hash) (idx / 2)
  else none

/-- append_pair of contracts/sources/merkle_tree.move: overflow guard, hash the
two leaves, climb levels 1 to height - 1, then advance the ring slot, write the
new root there (safe_history_add overwrites or adds) and bump next_index by 2.
A Move abort is modelled as none, so a failed append mutates nothing. -/
def append_pair (h : Nat → Nat → Nat) (z0 height : Nat) (t : MerkleTree) (c0 c1 : Nat) :
    Option MerkleTree :=
  if t.next_index < 2 ^ height then
    (appendLevels h (zeroHash h z0) (List.range' 1 (height - 1)) t.subtrees
        (poseidon2 h c0 c1) (t.next_index / 2)).map fun sr =>
      ⟨t.next_index + 2, sr.1,
       fun j => if j = (t.root_index + 1) % ROOT_HISTORY_SIZE then some sr.2 else t.root_history j,
       (t.root_index + 1) % ROOT_HISTORY_SIZE⟩
  else none

/-- root of merkle_tree.move; the table lookup aborts when the slot is absent,
modelled by Option. -/
def root (t : MerkleTree) : Option Nat := t.root_history t.root_index

/-- Scanning loop of is_known_root.  The Move loop terminates after exactly
ROOT_HISTORY_SIZE checks whenever root_index < ROOT_HISTORY_SIZE (true in every
reachable state); the fuel argument makes that bound explicit. -/
def is_known_root_loop (hist : Nat → Option Nat) (rootIdx r : Nat) : Nat → Nat → Bool
| _, 0 => false
| i, fuel + 1 =>
  if hist i = some r then true
  else
    let i2 := if i = 0 then ROOT_HISTORY_SIZE - 1 else i - 1
    if i2 = rootIdx then false else is_known_root_loop hist rootIdx r i2 fuel

/-- is_known_root of merkle_tree.move (identical in both variants): zero is
rejected outright, then the ring is scanned backward from root_index. -/
def is_known_root (t : MerkleTree) (r : Nat) : Bool :=
  if r = 0 then false
  else is_known_root_loop t.root_history t.root_index r t.root_index ROOT_HISTORY_SIZE

/-- poseidon2 of package/sources/merkle_tree.move: asserts both inputs are
field elements (abort modelled as none) instead of reducing them. -/
def poseidon2_checked (h : Nat → Nat → Nat) (a b : Nat) : Option Nat :=
  if a < P ∧ b < P then some (h a b) else none

/-- Loop body of the package single-leaf append over levels 0..height-1, with
the input-validating poseidon2. -/
def appendLevelsChecked (h : Nat → Nat → Nat) (z : Nat → Nat) :
    List Nat → List Nat → Nat → Nat → Option (List Nat × Nat)
| [], subs, hash, _ => some (subs, hash)
| i :: rest, subs, hash, idx =>
  if i < subs.length then
    match (if idx % 2 = 0 then poseidon2_checked h hash (z i)
           else poseidon2_checked h (subs.getD i 0) hash) with
    | some nh =>
      appendLevelsChecked h z rest (if idx % 2 = 0 then subs.set i hash else subs) nh (idx / 2)
    | none => none
  else none

/-- append of package/sources/merkle_tree.move (single-leaf historical
variant): overflow guard, then the leaf must be a valid poseidon input, then
the climb over all height levels; returns the index assigned to the leaf. -/
def append (h : Nat → Nat → Nat) (z0 height : Nat) (t : MerkleTree) (leaf : Nat) :
    Option (MerkleTree × Nat) :=
  if t.next_index < 2 ^ height then
    if leaf < P then
      (appendLevelsChecked h (zeroHash h z0) (List.range height) t.subtrees leaf t.next_index).map
        fun sr =>
          (⟨t.next_index + 1, sr.1,
            fun j => if j = (t.root_index + 1) % ROOT_HISTORY_SIZE then some sr.2
                     else t.root_history j,
            (t.root_index + 1) % ROOT_HISTORY_SIZE⟩, t.next_index)
    else none
  else none

/-- Sequence of paired appends, threading the Option state. -/
def appendAll (h : Nat → Nat → Nat) (z0 height : Nat) :
    Option MerkleTree → List (Nat × Nat) → Option MerkleTree
| acc, [] => acc
| acc, p :: rest =>
  appendAll h z0 height (acc.bind fun t => append_pair h z0 height t p.1 p.2) rest

/-- Flattened leaf sequence of a list of pairs, in insertion order. -/
def leavesOf : List (Nat × Nat) → List Nat
| [] => []
| p :: rest => p.1 :: p.2 :: leavesOf rest

/-- Root held by the tree after the first j pairs of ps were appended from
genesis (0 when an append aborted, which never happens below capacity). -/
def rootAt (h : Nat → Nat → Nat) (z0 height : Nat) (ps : List (Nat × Nat)) (j : Nat) : Nat :=
  ((appendAll h z0 height (some (new h z0 height)) (ps.take j)).bind root).getD 0

/-- is_known_root queried on the tree obtained by appending all of ps from
genesis (false when an append aborted, which never happens below capacity). -/
def knownAfter (h : Nat → Nat → Nat) (z0 height : Nat) (ps : List (Nat × Nat)) (r : Nat) : Bool :=
  ((appendAll h z0 height (some (new h z0 height)) ps).map fun t => is_known_root t r).getD false

/-- Spec-side climb over the listed levels, written from the words of the
claims: if the running position is even the node becomes the cached left
sibling and is hashed with the zero hash on the right, if it is odd the cached
subtree is the left operand; the position is then halved. -/
def specClimb (h : Nat → Nat → Nat) (z : Nat → Nat) :
    List Nat → List Nat → Nat → Nat → List Nat × Nat
| [], subs, hash, _ => (subs, hash)
| i :: rest, subs, hash, idx =>
  if idx % 2 = 0 then specClimb h z rest (subs.set i hash) (h hash (z i)) (idx / 2)
  else specClimb h z rest subs (h (subs.getD i 0) hash) (idx / 2)

/-- Slots of the ring in the order is_known_root visits them: root_index,
then backward with wraparound, each of the ROOT_HISTORY_SIZE slots once. -/
def scanSlots (s : Nat) : List Nat :=
  (List.range ROOT_HISTORY_SIZE).map fun j => (s + ROOT_HISTORY_SIZE - j) % ROOT_HISTORY_SIZE

/-- Slots visited by the scanning loop when started at slot i with the given
fuel, stopping after the step back to the starting slot s. -/
def scanFrom (s i : Nat) : Nat → List Nat
| 0 => []
| fuel + 1 =>
  let i2 := if i = 0 then ROOT_HISTORY_SIZE - 1 else i - 1
  i :: (if i2 = s then [] else scanFrom s i2 fuel)

/-- chunk w k i is the block of (at most) 2^i leaves at block index k. -/
def chunk (w : List Nat) (k i : Nat) : List Nat := (w.drop (k * 2 ^ i)).take (2 ^ i)

/-- Modelled from the spec: the root of a height-i subtree over the at most 2^i
leaves present in it, absent positions standing for the zero hashes.  This is
the dense tree the off-chain service rebuilds with buildMerkleTree of the sdk
(the fixed-merkle-tree implementation is not part of src). -/
def subRoot (h : Nat → Nat → Nat) (z0 : Nat) : Nat → List Nat → Nat
| 0, xs => xs.headD z0
| i + 1, xs => h (subRoot h z0 i (xs.take (2 ^ i))) (subRoot h z0 i (xs.drop (2 ^ i)))

/-- Modelled from the spec: root of the rebuilt off-chain tree over the full
ordered commitment list.  Both cache paths of getOrBuildMerkleTree (cold
rebuild from index 0, or cached snapshot plus the delta of newer commitments)
produce the dense tree over this same full list. -/
def offchainRoot (h : Nat → Nat → Nat) (z0 height : Nat) (elements : List Nat) : Nat :=
  subRoot h z0 height elements

/-- pathIndices entry at level i of tree.path: the bit of the leaf index at
that level (modelled from the spec). -/
def pathIndex (idx i : Nat) : Nat := idx / 2 ^ i % 2

/-- Block index of the sibling of the walked node at level i (modelled from
the spec). -/
def siblingIndex (idx i : Nat) : Nat :=
  if idx / 2 ^ i % 2 = 0 then idx / 2 ^ i + 1 else idx / 2 ^ i - 1

/-- Modelled from the spec: pathElements of tree.path(index) of the external
fixed-merkle-tree, the sibling hash at every level. -/
def pathElements (h : Nat → Nat → Nat) (z0 height : Nat) (elements : List Nat) (idx : Nat) :
    List Nat :=
  (List.range height).map fun i => subRoot h z0 i (chunk elements (siblingIndex idx i) i)

/-- The wasmPath loop of getMerklePath in services/merkle-tree.ts: one
(left, right) pair per level, rehashing upward. -/
def wasmPathLoop (h : Nat → Nat → Nat) : List Nat → List Nat → Nat → List (Nat × Nat)
| [], _, _ => []
| sib :: sibs, bits, cur =>
  let isLeft := bits.headD 0 = 0
  let left := if isLeft then cur else sib
  let right := if isLeft then sib else cur
  (left, right) :: wasmPathLoop h sibs bits.tail (h left right)

/-- getMerklePath of services/merkle-tree.ts: an out-of-range index yields the
zero path and the current root; in range, the commitment recomputed from the
caller-supplied UTXO data (passed here as the opaque value commitment) must
equal the stored one, or the call throws. -/
def getMerklePath (h : Nat → Nat → Nat) (z0 height : Nat) (elements : List Nat) (index : Int)
    (commitment : Nat) : Except String (List (Nat × Nat) × Nat) :=
  if index < 0 ∨ (elements.length : Int) ≤ index then
    .ok (List.replicate height (z0, z0), offchainRoot h z0 height elements)
  else if elements.getD index.toNat 0 = commitment then
    .ok (wasmPathLoop h (pathElements h z0 height elements index.toNat)
          ((List.range height).map (pathIndex index.toNat)) commitment,
         offchainRoot h z0 height elements)
  else .error ("Commitment mismatch at index " ++ toString index)

/-- Reachable states of the paired-append tree: genesis followed by any
sequence of successful append_pair calls. -/
def Reachable (h : Nat → Nat → Nat) (z0 height : Nat) (t : MerkleTree) : Prop :=
  ∃ ps, appendAll h z0 height (some (new h z0 height)) ps = some t

/-- Coupling invariant between an on-chain tree state and the ordered list w
of (reduced) leaves inserted so far: counters agree, all stored values are
field elements, the current root is the dense-tree root of w, and whenever the
count of filled nodes at a level is odd the cached subtree is the dense root
of the last complete block at that level. -/
def TreeInv (h : Nat → Nat → Nat) (z0 height : Nat) (w : List Nat) (t : MerkleTree) : Prop :=
  t.next_index = w.length ∧ w.length % 2 = 0 ∧ w.length ≤ 2 ^ height ∧
  t.subtrees.length = height ∧ (∀ x ∈ t.subtrees, x < P) ∧ (∀ x ∈ w, x < P) ∧
  t.root_index < ROOT_HISTORY_SIZE ∧
  root t = some (subRoot h z0 height w) ∧
  ∀ j, 1 ≤ j → j < height → (w.length / 2 ^ j) % 2 = 1 →
    t.subtrees.getD j 0 = subRoot h z0 j (chunk w (w.length / 2 ^ j - 1) j)

/-- Concrete stand-in hash used only to instantiate witnesses: the real
poseidon is an external primitive. -/
def hW : Nat → Nat → Nat := fun a b => (2 * a + 3 * b + 5) % P

/-! Helper lemmas. -/

theorem hW_lt (a b : Nat) : hW a b < P := Nat.mod_lt _ (by decide)

theorem getD_map_range (f : Nat → Nat) (n i : Nat) (hi : i < n) :
    ((List.range n).map f).getD i 0 = f i := by
  rw [List.getD_eq_getElem?_getD, List.getElem?_map, List.getElem?_range hi]
  rfl

theorem getD_set_ne (v d : Nat) :
    ∀ (l : List Nat) (i j : Nat), i ≠ j → (l.set i v).getD j d = l.getD j d := by
  intro l
  induction l with
  | nil => intro i j _; rfl
  | cons a as ih =>
    intro i j hij
    cases i with
    | zero =>
      cases j with
      | zero => exact absurd rfl hij
      | succ j' => rfl
    | succ i' =>
      cases j with
      | zero => rfl
      | succ j' => exact ih i' j' (by omega)

theorem getD_set_self (v d : Nat) :
    ∀ (l : List Nat) (i : Nat), i < l.length → (l.set i v).getD i d = v := by
  intro l
  induction l with
  | nil => intro i hi; simp at hi
  | cons a as ih =>
    intro i hi
    cases i with
    | zero => rfl
    | succ i' => exact ih i' (by simpa using hi)

theorem mem_of_mem_set (v : Nat) :
    ∀ (l : List Nat) (i : Nat) (x : Nat), x ∈ l.set i v → x ∈ l ∨ x = v := by
  intro l
  induction l with
  | nil => intro i x hx; simp at hx
  | cons a as ih =>
    intro i x hx
    cases i with
    | zero =>
      rcases List.mem_cons.1 hx with hx | hx
      · exact Or.inr hx
      · exact Or.inl (List.mem_cons_of_mem a hx)
    | succ i' =>
      rcases List.mem_cons.1 hx with hx | hx
      · exact Or.inl (hx ▸ List.mem_cons_self a as)
      · rcases ih i' x hx with hx | hx
        · exact Or.inl (List.mem_cons_of_mem a hx)
        · exact Or.inr hx

theorem zeroHash_lt (h : Nat → Nat → Nat) (z0 : Nat) (hP : ∀ a b, h a b < P)
    (hz0 : z0 < P) : ∀ i, zeroHash h z0 i < P := by
  intro i
  induction i with
  | zero => exact hz0
  | succ i _ => exact hP _ _

/-- The unchecked climb loop never aborts when every listed level is in
bounds, and computes specClimb instantiated with the reducing poseidon2. -/
theorem appendLevels_eq (h : Nat → Nat → Nat) (z : Nat → Nat) :
    ∀ (levels subs : List Nat) (hash idx : Nat), (∀ l ∈ levels, l < subs.length) →
    appendLevels h z levels subs hash idx =
      some (specClimb (poseidon2 h) z levels subs hash idx) := by
  intro levels
  induction levels with
  | nil => intro subs hash idx _; rfl
  | cons i rest ih =>
    intro subs hash idx hin
    have hi : i < subs.length := hin i (List.mem_cons_self i rest)
    unfold appendLevels specClimb
    rw [if_pos hi]
    by_cases hpar : idx % 2 = 0
    · rw [if_pos hpar, if_pos hpar]
      exact ih _ _ _ fun l hl => by
        rw [List.length_set]; exact hin l (List.mem_cons_of_mem i hl)
    · rw [if_neg hpar, if_neg hpar]
      exact ih _ _ _ fun l hl => hin l (List.mem_cons_of_mem i hl)

theorem specClimb_length (h : Nat → Nat → Nat) (z : Nat → Nat) :
    ∀ (levels subs : List Nat) (hash idx : Nat),
    (specClimb h z levels subs hash idx).1.length = subs.length := by
  intro levels
  induction levels with
  | nil => intro subs hash idx; rfl
  | cons i rest ih =>
    intro subs hash idx
    unfold specClimb
    by_cases hpar : idx % 2 = 0
    · rw [if_pos hpar, ih, List.length_set]
    · rw [if_neg hpar, ih]

/-- When every value in sight is a reduced field element, the reducing climb
agrees with the spec-side climb over the raw hash. -/
theorem specClimb_reduce (h : Nat → Nat → Nat) (z : Nat → Nat)
    (hP : ∀ a b, h a b < P) (hz : ∀ i, z i < P) :
    ∀ (levels subs : List Nat) (hash idx : Nat), (∀ x ∈ subs, x < P) → hash < P →
    specClimb (poseidon2 h) z levels subs hash idx = specClimb h z levels subs hash idx := by
  intro levels
  induction levels with
  | nil => intro subs hash idx _ _; rfl
  | cons i rest ih =>
    intro subs hash idx hsub hhash
    unfold specClimb
    by_cases hpar : idx % 2 = 0
    · rw [if_pos hpar, if_pos hpar]
      have hred : poseidon2 h hash (z i) = h hash (z i) := by
        unfold poseidon2
        rw [Nat.mod_eq_of_lt hhash, Nat.mod_eq_of_lt (hz i)]
      rw [hred]
      exact ih _ _ _
        (fun x hx => by
          rcases mem_of_mem_set hash subs i x hx with hx | hx
          · exact hsub x hx
          · exact hx ▸ hhash)
        (hP _ _)
    · rw [if_neg hpar, if_neg hpar]
      have hgd : subs.getD i 0 < P := by
        rcases Nat.lt_or_ge i subs.length with hi | hi
        · have hg : subs.getD i 0 = subs[i] := by
            rw [List.getD_eq_getElem?_getD, List.getElem?_eq_getElem hi]
            rfl
          rw [hg]
          exact hsub _ (List.getElem_mem hi)
        · rw [List.getD_eq_default _ _ hi]
          exact Nat.pos_of_ne_zero (by decide)
      have hred : poseidon2 h (subs.getD i 0) hash = h (subs.getD i 0) hash := by
        unfold poseidon2
        rw [Nat.mod_eq_of_lt hgd, Nat.mod_eq_of_lt hhash]
      rw [hred]
      exact ih _ _ _ hsub (hP _ _)

/-- Full characterization of a successful append_pair. -/
theorem append_pair_char (h : Nat → Nat → Nat) (z0 height : Nat) (t : MerkleTree) (a b : Nat)
    (hlen : t.subtrees.length = height) (hguard : t.next_index < 2 ^ height) :
    append_pair h z0 height t a b = some
      ⟨t.next_index + 2,
       (specClimb (poseidon2 h) (zeroHash h z0) (List.range' 1 (height - 1)) t.subtrees
          (poseidon2 h a b) (t.next_index / 2)).1,
       fun j => if j = (t.root_index + 1) % ROOT_HISTORY_SIZE then
           some ((specClimb (poseidon2 h) (zeroHash h z0) (List.range' 1 (height - 1)) t.subtrees
              (poseidon2 h a b) (t.next_index / 2)).2)
         else t.root_history j,
       (t.root_index + 1) % ROOT_HISTORY_SIZE⟩ := by
  unfold append_pair
  rw [if_pos hguard, appendLevels_eq]
  · rfl
  · intro l hl
    rw [hlen]
    have := List.mem_range'_1.1 hl
    omega

theorem append_pair_isSome_iff (h : Nat → Nat → Nat) (z0 height : Nat) (t : MerkleTree)
    (a b : Nat) (hlen : t.subtrees.length = height) :
    (append_pair h z0 height t a b).isSome = true ↔ t.next_index < 2 ^ height := by
  constructor
  · intro hs
    by_contra hguard
    unfold append_pair at hs
    rw [if_neg hguard] at hs
    exact absurd hs (by decide)
  · intro hguard
    rw [append_pair_char h z0 height t a b hlen hguard]
    rfl

theorem append_pair_overflow_iff (h : Nat → Nat → Nat) (z0 height : Nat) (t : MerkleTree)
    (a b : Nat) (hh : 1 ≤ height) (hlen : t.subtrees.length = height)
    (heven : 2 ∣ t.next_index) :
    append_pair h z0 height t a b = none ↔ 2 ^ height < t.next_index + 2 := by
  have hdvd : 2 ∣ 2 ^ height := dvd_pow_self 2 (by omega)
  have hiff := append_pair_isSome_iff h z0 height t a b hlen
  rw [← Option.not_isSome_iff_eq_none]
  constructor
  · intro hn
    have h2 := mt hiff.2 hn
    omega
  · intro hlt hs
    have := hiff.1 hs
    omega

theorem appendAll_nil (h : Nat → Nat → Nat) (z0 height : Nat) (acc : Option MerkleTree) :
    appendAll h z0 height acc [] = acc := rfl

theorem appendAll_none (h : Nat → Nat → Nat) (z0 height : Nat) :
    ∀ ps, appendAll h z0 height none ps = none := by
  intro ps
  induction ps with
  | nil => rfl
  | cons p rest ih => exact ih

theorem appendAll_cons (h : Nat → Nat → Nat) (z0 height : Nat) (t : MerkleTree)
    (p : Nat × Nat) (rest : List (Nat × Nat)) :
    appendAll h z0 height (some t) (p :: rest) =
      appendAll h z0 height (append_pair h z0 height t p.1 p.2) rest := rfl

theorem appendAll_append (h : Nat → Nat → Nat) (z0 height : Nat) :
    ∀ (xs ys : List (Nat × Nat)) (acc : Option MerkleTree),
    appendAll h z0 height acc (xs ++ ys) = appendAll h z0 height (appendAll h z0 height acc xs) ys := by
  intro xs
  induction xs with
  | nil => intro ys acc; rfl
  | cons p rest ih => intro ys acc; exact ih ys _

/-- Field-level description of a successful append_pair. -/
theorem append_pair_some_fields (h : Nat → Nat → Nat) (z0 height : Nat) (t : MerkleTree)
    (a b : Nat) (hlen : t.subtrees.length = height) (hguard : t.next_index < 2 ^ height) :
    ∃ t1, append_pair h z0 height t a b = some t1 ∧
      t1.next_index = t.next_index + 2 ∧ t1.subtrees.length = height ∧
      t1.root_index = (t.root_index + 1) % ROOT_HISTORY_SIZE ∧
      t1.subtrees = (specClimb (poseidon2 h) (zeroHash h z0) (List.range' 1 (height - 1))
          t.subtrees (poseidon2 h a b) (t.next_index / 2)).1 ∧
      root t1 = some ((specClimb (poseidon2 h) (zeroHash h z0) (List.range' 1 (height - 1))
          t.subtrees (poseidon2 h a b) (t.next_index / 2)).2) ∧
      ∀ j, j ≠ t1.root_index → t1.root_history j = t.root_history j := by
  refine ⟨_, append_pair_char h z0 height t a b hlen hguard, rfl, ?_, rfl, rfl, ?_, ?_⟩
  · rw [specClimb_length]
    exact hlen
  · show (if (t.root_index + 1) % ROOT_HISTORY_SIZE = (t.root_index + 1) % ROOT_HISTORY_SIZE
        then _ else _) = _
    rw [if_pos rfl]
  · intro j hj
    show (if j = (t.root_index + 1) % ROOT_HISTORY_SIZE then _ else _) = _
    rw [if_neg hj]

/-- Every append below capacity succeeds, preserving well-formedness. -/
theorem appendAll_some (h : Nat → Nat → Nat) (z0 height : Nat) :
    ∀ (ps : List (Nat × Nat)) (t : MerkleTree), t.subtrees.length = height →
    t.next_index + 2 * ps.length ≤ 2 ^ height →
    ∃ t', appendAll h z0 height (some t) ps = some t' ∧
      t'.next_index = t.next_index + 2 * ps.length ∧ t'.subtrees.length = height := by
  intro ps
  induction ps with
  | nil => intro t hlen _; exact ⟨t, rfl, by simp, hlen⟩
  | cons p rest ih =>
    intro t hlen hcap
    have hguard : t.next_index < 2 ^ height := by
      simp only [List.length_cons] at hcap
      omega
    obtain ⟨t1, hpair, hnext, hlen1, _, _, _, _⟩ :=
      append_pair_some_fields h z0 height t p.1 p.2 hlen hguard
    rw [appendAll_cons, hpair]
    obtain ⟨t', h1, h2, h3⟩ := ih t1 hlen1 (by
      simp only [List.length_cons] at hcap
      omega)
    refine ⟨t', h1, ?_, h3⟩
    simp only [List.length_cons]
    omega

/-! Claim theorems. -/

/-- C7: tree initialization produces next_index = 0, subtrees holding the zero
hash of every level below height, slot 0 of the root history holding the zero
hash of the full height (the all-empty root), and root_index = 0; hence the
current root right after genesis is the full-height zero hash. -/
theorem c7_init_state (h : Nat → Nat → Nat) (z0 height : Nat) :
    (new h z0 height).next_index = 0 ∧
    (∀ i, i < height → (new h z0 height).subtrees.getD i 0 = zeroHash h z0 i) ∧
    (new h z0 height).root_history 0 = some (zeroHash h z0 height) ∧
    (new h z0 height).root_index = 0 ∧
    root (new h z0 height) = some (zeroHash h z0 height) := by
  refine ⟨rfl, ?_, rfl, rfl, rfl⟩
  intro i hi
  exact getD_map_range (zeroHash h z0) height i hi

/-- Witness for C7 at a concrete height-2 instance. -/
theorem c7_init_state_witness :
    (new hW 0 2).next_index = 0 ∧
    (∀ i, i < 2 → (new hW 0 2).subtrees.getD i 0 = zeroHash hW 0 i) ∧
    (new hW 0 2).root_history 0 = some (zeroHash hW 0 2) ∧
    (new hW 0 2).root_index = 0 ∧
    root (new hW 0 2) = some (zeroHash hW 0 2) :=
  c7_init_state hW 0 2

/-- C8: an out-of-range leaf index (negative, or at least the number of
inserted leaves) makes the path service return the zero path of length height
(pairs of the ZERO_VALUE sentinel z0) together with the current root, rather
than erroring. -/
theorem c8_out_of_range (h : Nat → Nat → Nat) (z0 height : Nat) (elements : List Nat)
    (index : Int) (commitment : Nat)
    (hidx : index < 0 ∨ (elements.length : Int) ≤ index) :
    getMerklePath h z0 height elements index commitment =
      .ok (List.replicate height (z0, z0), offchainRoot h z0 height elements) := by
  unfold getMerklePath
  rw [if_pos hidx]

/-- Witness for C8: index 5 against a one-element tree. -/
theorem c8_out_of_range_witness :
    getMerklePath hW 0 2 [3] 5 9 =
      .ok (List.replicate 2 ((0 : Nat), (0 : Nat)), offchainRoot hW 0 2 [3]) :=
  c8_out_of_range hW 0 2 [3] 5 9 (Or.inr (by decide))

/-- C10: for an in-range leaf index the path service returns a sibling path
exactly when the recomputed commitment equals the stored one; when they differ
it throws the commitment-mismatch error instead of returning a path. -/
theorem c10_commitment_mismatch (h : Nat → Nat → Nat) (z0 height : Nat) (elements : List Nat)
    (index : Int) (commitment : Nat) (h1 : 0 ≤ index) (h2 : index < (elements.length : Int)) :
    ((∃ resp, getMerklePath h z0 height elements index commitment = .ok resp) ↔
      elements.getD index.toNat 0 = commitment) ∧
    (elements.getD index.toNat 0 ≠ commitment →
      getMerklePath h z0 height elements index commitment =
        .error ("Commitment mismatch at index " ++ toString index)) := by
  have hcond : ¬(index < 0 ∨ (elements.length : Int) ≤ index) := by
    rintro (hlt | hle) <;> omega
  unfold getMerklePath
  rw [if_neg hcond]
  by_cases hc : elements.getD index.toNat 0 = commitment
  · rw [if_pos hc]
    exact ⟨fun _ => hc, fun _ => ⟨_, rfl⟩⟩ |> fun hiff => ⟨hiff, fun hne => absurd hc hne⟩
  · rw [if_neg hc]
    constructor
    · constructor
      · rintro ⟨resp, hresp⟩
        exact absurd hresp (by simp)
      · intro hcc
        exact absurd hcc hc
    · intro _
      rfl

/-- C2: below capacity, append_pair hashes the two leaves, climbs levels 1 to
height - 1 exactly as described (even position: cache the hash as the filled
subtree and hash it with the zero hash on the right; odd position: hash the
cached subtree on the left with the hash on the right; halve the position),
writes the resulting root into the history slot (root_index + 1) mod
ROOT_HISTORY_SIZE, leaves every other slot untouched, and raises next_index by
exactly 2.  specClimb is the climb written from the words of the claim. -/
theorem c2_append_pair_algorithm (h : Nat → Nat → Nat) (z0 height : Nat) (t : MerkleTree)
    (a b : Nat) (hP : ∀ x y, h x y < P) (hz0 : z0 < P)
    (hsub : ∀ x ∈ t.subtrees, x < P) (hlen : t.subtrees.length = height)
    (ha : a < P) (hb : b < P) (hcap : t.next_index + 2 ≤ 2 ^ height) :
    ∃ t', append_pair h z0 height t a b = some t' ∧
      t'.next_index = t.next_index + 2 ∧
      t'.root_index = (t.root_index + 1) % ROOT_HISTORY_SIZE ∧
      t'.subtrees = (specClimb h (zeroHash h z0) (List.range' 1 (height - 1)) t.subtrees
          (h a b) (t.next_index / 2)).1 ∧
      t'.root_history t'.root_index = some ((specClimb h (zeroHash h z0)
          (List.range' 1 (height - 1)) t.subtrees (h a b) (t.next_index / 2)).2) ∧
      ∀ j, j ≠ t'.root_index → t'.root_history j = t.root_history j := by
  have hguard : t.next_index < 2 ^ height := by omega
  obtain ⟨t1, hpair, h1, _, h3, h4, h5, h6⟩ :=
    append_pair_some_fields h z0 height t a b hlen hguard
  have hp2 : poseidon2 h a b = h a b := by
    unfold poseidon2
    rw [Nat.mod_eq_of_lt ha, Nat.mod_eq_of_lt hb]
  have hred := specClimb_reduce h (zeroHash h z0) hP (zeroHash_lt h z0 hP hz0)
    (List.range' 1 (height - 1)) t.subtrees (h a b) (t.next_index / 2) hsub (hP a b)
  rw [hp2, hred] at h4 h5
  exact ⟨t1, hpair, h1, h3, h4, h5, h6⟩

/-- Witness for C2 at a concrete height-2 instance with leaves 5 and 7. -/
theorem c2_append_pair_algorithm_witness :
    ∃ t', append_pair hW 0 2 (new hW 0 2) 5 7 = some t' ∧
      t'.next_index = (new hW 0 2).next_index + 2 ∧
      t'.root_index = ((new hW 0 2).root_index + 1) % ROOT_HISTORY_SIZE ∧
      t'.subtrees = (specClimb hW (zeroHash hW 0) (List.range' 1 (2 - 1)) (new hW 0 2).subtrees
          (hW 5 7) ((new hW 0 2).next_index / 2)).1 ∧
      t'.root_history t'.root_index = some ((specClimb hW (zeroHash hW 0)
          (List.range' 1 (2 - 1)) (new hW 0 2).subtrees (hW 5 7)
          ((new hW 0 2).next_index / 2)).2) ∧
      ∀ j, j ≠ t'.root_index → t'.root_history j = (new hW 0 2).root_history j :=
  c2_append_pair_algorithm hW 0 2 (new hW 0 2) 5 7 hW_lt (by decide) (by decide) (by decide)
    (by decide) (by decide) (by decide)

/-- C3: on even (reachable) states append_pair aborts with the overflow error
exactly when next_index + 2 exceeds 2^height, and an abort leaves no mutated
state (a failed append is none, producing no successor state); from genesis,
all 2^height / 2 pair appends succeed, filling the tree, and any further
append_pair fails. -/
theorem c3_capacity (h : Nat → Nat → Nat) (z0 height : Nat) (hh : 1 ≤ height) :
    (∀ (t : MerkleTree) (a b : Nat), t.subtrees.length = height → 2 ∣ t.next_index →
      (append_pair h z0 height t a b = none ↔ 2 ^ height < t.next_index + 2)) ∧
    (∀ ps : List (Nat × Nat), ps.length = 2 ^ (height - 1) →
      ∃ t, appendAll h z0 height (some (new h z0 height)) ps = some t ∧
        t.next_index = 2 ^ height ∧
        ∀ a b, append_pair h z0 height t a b = none) := by
  have hpow : 2 * 2 ^ (height - 1) = 2 ^ height := by
    have hs : height - 1 + 1 = height := by omega
    calc 2 * 2 ^ (height - 1) = 2 ^ (height - 1) * 2 := by ring
    _ = 2 ^ (height - 1 + 1) := (pow_succ 2 (height - 1)).symm
    _ = 2 ^ height := by rw [hs]
  constructor
  · intro t a b hlen heven
    exact append_pair_overflow_iff h z0 height t a b hh hlen heven
  · intro ps hps
    have hlen0 : (new h z0 height).subtrees.length = height := by
      simp [new]
    have hcap : (new h z0 height).next_index + 2 * ps.length ≤ 2 ^ height := by
      show 0 + 2 * ps.length ≤ 2 ^ height
      rw [hps]
      omega
    obtain ⟨t, h1, h2, h3⟩ := appendAll_some h z0 height ps (new h z0 height) hlen0 hcap
    have hnext : t.next_index = 2 ^ height := by
      rw [h2, hps]
      show 0 + 2 * 2 ^ (height - 1) = 2 ^ height
      omega
    refine ⟨t, h1, hnext, fun a b => ?_⟩
    rw [append_pair_overflow_iff h z0 height t a b hh h3 (by
      rw [hnext]
      exact dvd_pow_self 2 (by omega))]
    have hpos : 0 < 2 ^ height := Nat.pos_pow_of_pos height (by omega)
    omega

/-- Witness for C3 at height 1: one pair fills the tree, the next append
fails. -/
theorem c3_capacity_witness :
    (∀ (t : MerkleTree) (a b : Nat), t.subtrees.length = 1 → 2 ∣ t.next_index →
      (append_pair hW 0 1 t a b = none ↔ 2 ^ 1 < t.next_index + 2)) ∧
    (∀ ps : List (Nat × Nat), ps.length = 2 ^ (1 - 1) →
      ∃ t, appendAll hW 0 1 (some (new hW 0 1)) ps = some t ∧
        t.next_index = 2 ^ 1 ∧
        ∀ a b, append_pair hW 0 1 t a b = none) :=
  c3_capacity hW 0 1 (by decide)

theorem reach_fields (h : Nat → Nat → Nat) (z0 height : Nat) (hh : 1 ≤ height) :
    ∀ (ps : List (Nat × Nat)) (t0 t : MerkleTree),
    (2 ∣ t0.next_index ∧ t0.next_index ≤ 2 ^ height ∧
      t0.root_index < ROOT_HISTORY_SIZE ∧ (root t0).isSome = true ∧
      t0.subtrees.length = height) →
    appendAll h z0 height (some t0) ps = some t →
    (2 ∣ t.next_index ∧ t.next_index ≤ 2 ^ height ∧
      t.root_index < ROOT_HISTORY_SIZE ∧ (root t).isSome = true ∧
      t.subtrees.length = height) := by
  intro ps
  induction ps with
  | nil =>
    intro t0 t hinv happ
    have := Option.some.inj happ
    rw [← this]
    exact hinv
  | cons p rest ih =>
    intro t0 t hinv happ
    rw [appendAll_cons] at happ
    obtain ⟨hd, hle, hri, hrs, hlen⟩ := hinv
    cases hpair : append_pair h z0 height t0 p.1 p.2 with
    | none =>
      rw [hpair, appendAll_none] at happ
      exact absurd happ (by simp)
    | some t1 =>
      rw [hpair] at happ
      have hguard : t0.next_index < 2 ^ height := by
        refine (append_pair_isSome_iff h z0 height t0 p.1 p.2 hlen).1 ?_
        rw [hpair]
        rfl
      obtain ⟨t1', hpair', f1, f2, f3, _, f5, _⟩ :=
        append_pair_some_fields h z0 height t0 p.1 p.2 hlen hguard
      rw [hpair'] at hpair
      have ht1 := Option.some.inj hpair
      rw [← ht1] at happ
      refine ih t1' t ⟨?_, ?_, ?_, ?_, f2⟩ happ
      · rw [f1]
        omega
      · have hdvd : 2 ∣ 2 ^ height := dvd_pow_self 2 (by omega)
        rw [f1]
        omega
      · rw [f3]
        exact Nat.mod_lt _ (by decide)
      · rw [f5]
        rfl

/-- C9: every state reachable from genesis through successful append_pair
calls has an even next_index bounded by 2^height, a root_index inside the
ring, and a history entry at root_index (so root never aborts); on such states
the overflow guard next_index < 2^height coincides with the precondition of
the spec, next_index + 2 at most 2^height. -/
theorem c9_reachable_invariants (h : Nat → Nat → Nat) (z0 height : Nat) (t : MerkleTree)
    (hh : 1 ≤ height) (hr : Reachable h z0 height t) :
    2 ∣ t.next_index ∧ t.next_index ≤ 2 ^ height ∧ t.root_index < ROOT_HISTORY_SIZE ∧
    (root t).isSome = true ∧
    ∀ a b, (append_pair h z0 height t a b = none ↔ 2 ^ height < t.next_index + 2) := by
  obtain ⟨ps, hps⟩ := hr
  have hinv0 : 2 ∣ (new h z0 height).next_index ∧
      (new h z0 height).next_index ≤ 2 ^ height ∧
      (new h z0 height).root_index < ROOT_HISTORY_SIZE ∧
      (root (new h z0 height)).isSome = true ∧
      (new h z0 height).subtrees.length = height := by
    refine ⟨⟨0, rfl⟩, Nat.zero_le _, ?_, rfl, by simp [new]⟩
    show (0 : Nat) < ROOT_HISTORY_SIZE
    decide
  obtain ⟨hd, hle, hri, hrs, hlen⟩ :=
    reach_fields h z0 height hh ps (new h z0 height) t hinv0 hps
  exact ⟨hd, hle, hri, hrs,
    fun a b => append_pair_overflow_iff h z0 height t a b hh hlen hd⟩

/-- Witness for C9 at the genesis state of a height-2 tree. -/
theorem c9_reachable_invariants_witness :
    2 ∣ (new hW 0 2).next_index ∧ (new hW 0 2).next_index ≤ 2 ^ 2 ∧
    (new hW 0 2).root_index < ROOT_HISTORY_SIZE ∧
    (root (new hW 0 2)).isSome = true ∧
    ∀ a b, (append_pair hW 0 2 (new hW 0 2) a b = none ↔
      2 ^ 2 < (new hW 0 2).next_index + 2) :=
  c9_reachable_invariants hW 0 2 (new hW 0 2) (by decide) ⟨[], rfl⟩

/-- Counterexample to C6 as stated: the paired-append variant accepts the
out-of-field leaf P without any InvalidFieldElement failure (its poseidon2
reduces inputs instead of validating them). -/
theorem c6_counterexample : P ≤ P ∧ (append_pair hW 0 4 (new hW 0 4) P 0).isSome = true :=
  ⟨Nat.le_refl P, by decide⟩

/-- C6 amended: the paired-append variant performs no field validation, it
silently reduces both leaves modulo P before hashing (so a call with leaves at
least P behaves exactly as the call on the reduced leaves); the field check of
the claim exists only in the package single-leaf variant, whose append does
fail (abort, no mutation) whenever the leaf is at least P. -/
theorem c6_amended_validation (h : Nat → Nat → Nat) (z0 height : Nat) :
    (∀ (t : MerkleTree) (a b : Nat),
      append_pair h z0 height t a b = append_pair h z0 height t (a % P) (b % P)) ∧
    (∀ (t : MerkleTree) (leaf : Nat), P ≤ leaf → append h z0 height t leaf = none) := by
  constructor
  · intro t a b
    unfold append_pair
    have hred : poseidon2 h (a % P) (b % P) = poseidon2 h a b := by
      unfold poseidon2
      rw [Nat.mod_mod_of_dvd a (dvd_refl P), Nat.mod_mod_of_dvd b (dvd_refl P)]
    rw [hred]
  · intro t leaf hle
    unfold append
    have hnl : ¬ leaf < P := by omega
    by_cases hg : t.next_index < 2 ^ height
    · rw [if_pos hg, if_neg hnl]
    · rw [if_neg hg]

/-- Witness for the amended C6 at concrete out-of-field leaves. -/
theorem c6_amended_validation_witness :
    append_pair hW 0 4 (new hW 0 4) (P + 3) 1 =
      append_pair hW 0 4 (new hW 0 4) ((P + 3) % P) (1 % P) ∧
    (P ≤ P + 1 ∧ append hW 0 4 (new hW 0 4) (P + 1) = none) :=
  ⟨(c6_amended_validation hW 0 4).1 (new hW 0 4) (P + 3) 1,
   Nat.le_add_right P 1,
   (c6_amended_validation hW 0 4).2 (new hW 0 4) (P + 1) (Nat.le_add_right P 1)⟩

theorem loop_eq_scanFrom (hist : Nat → Option Nat) (s r : Nat) :
    ∀ (fuel i : Nat),
    is_known_root_loop hist s r i fuel =
      (scanFrom s i fuel).any fun k => decide (hist k = some r) := by
  intro fuel
  induction fuel with
  | zero => intro i; rfl
  | succ fuel ih =>
    intro i
    simp only [is_known_root_loop, scanFrom, List.any_cons]
    by_cases hh : hist i = some r
    · rw [if_pos hh]
      simp [hh]
    · rw [if_neg hh]
      have hp : decide (hist i = some r) = false := by
        simp [hh]
      rw [hp]
      simp only [Bool.false_or]
      by_cases hi2 : (if i = 0 then ROOT_HISTORY_SIZE - 1 else i - 1) = s
      · rw [if_pos hi2, if_pos hi2]
        rfl
      · rw [if_neg hi2, if_neg hi2]
        exact ih _

theorem scanFrom_closed (s : Nat) (hs : s < 100) :
    ∀ (m i : Nat), i < 100 → m = (i + 99 - s) % 100 + 1 →
    scanFrom s i m = (List.range m).map fun j => (i + 100 - j) % 100 := by
  intro m
  induction m with
  | zero => intro i _ hm; omega
  | succ m ih =>
    intro i hi hm
    have hR : ROOT_HISTORY_SIZE = 100 := rfl
    have hi2 : (if i = 0 then ROOT_HISTORY_SIZE - 1 else i - 1) = (i + 99) % 100 := by
      by_cases h0 : i = 0
      · rw [if_pos h0, hR]
        omega
      · rw [if_neg h0]
        omega
    simp only [scanFrom, hi2]
    rw [List.range_succ_eq_map, List.map_cons, List.map_map]
    have hf0 : (i + 100 - 0) % 100 = i := by omega
    rw [hf0]
    by_cases hstop : (i + 99) % 100 = s
    · rw [if_pos hstop]
      have hm0 : m = 0 := by omega
      subst hm0
      rfl
    · rw [if_neg hstop]
      rw [ih ((i + 99) % 100) (by omega) (by omega)]
      congr 1
      apply List.map_congr_left
      intro j hj
      have hjm : j < m := List.mem_range.1 hj
      show ((i + 99) % 100 + 100 - j) % 100 = (i + 100 - (j + 1)) % 100
      omega

theorem is_known_root_eq_scan (t : MerkleTree) (r : Nat)
    (hri : t.root_index < ROOT_HISTORY_SIZE) :
    is_known_root t r =
      (decide (r ≠ 0) &&
        (scanSlots t.root_index).any fun k => decide (t.root_history k = some r)) := by
  have hR : ROOT_HISTORY_SIZE = 100 := rfl
  unfold is_known_root
  by_cases hr : r = 0
  · subst hr
    rw [if_pos rfl]
    simp
  · rw [if_neg hr]
    rw [loop_eq_scanFrom t.root_history t.root_index r ROOT_HISTORY_SIZE t.root_index]
    rw [show scanFrom t.root_index t.root_index ROOT_HISTORY_SIZE =
        scanFrom t.root_index t.root_index 100 from rfl]
    rw [scanFrom_closed t.root_index (by omega) 100 t.root_index (by omega) (by omega)]
    have hd : decide (r ≠ 0) = true := by simp [hr]
    rw [hd, Bool.true_and]
    rfl

theorem mem_scanSlots (s k : Nat) (hs : s < ROOT_HISTORY_SIZE) :
    k ∈ scanSlots s ↔ k < ROOT_HISTORY_SIZE := by
  have hR : ROOT_HISTORY_SIZE = 100 := rfl
  unfold scanSlots
  constructor
  · intro hk
    obtain ⟨j, _, rfl⟩ := List.mem_map.1 hk
    exact Nat.mod_lt _ (by decide)
  · intro hk
    refine List.mem_map.2 ⟨(s + ROOT_HISTORY_SIZE - k) % ROOT_HISTORY_SIZE, ?_, ?_⟩
    · exact List.mem_range.2 (Nat.mod_lt _ (by decide))
    · rw [hR] at hs hk ⊢
      omega

theorem is_known_root_iff (t : MerkleTree) (r : Nat)
    (hri : t.root_index < ROOT_HISTORY_SIZE) :
    is_known_root t r = true ↔
      r ≠ 0 ∧ ∃ s, s < ROOT_HISTORY_SIZE ∧ t.root_history s = some r := by
  rw [is_known_root_eq_scan t r hri, Bool.and_eq_true, List.any_eq_true]
  constructor
  · rintro ⟨hr, k, hk, hkr⟩
    exact ⟨by simpa using hr, k, (mem_scanSlots t.root_index k hri).1 hk, by simpa using hkr⟩
  · rintro ⟨hr, k, hk, hkr⟩
    exact ⟨by simpa using hr, k, (mem_scanSlots t.root_index k hri).2 hk, by simpa using hkr⟩

/-- C4: is_known_root rejects the zero sentinel unconditionally; otherwise it
scans the ring starting at root_index and walking backward with wraparound
(the slot order scanSlots), checking each of the ROOT_HISTORY_SIZE slots at
most once, returning true exactly on the first visited slot storing the
candidate and false when the full ring holds no match. -/
theorem c4_is_known_root_scan (t : MerkleTree) (r : Nat) :
    is_known_root t 0 = false ∧
    (t.root_index < ROOT_HISTORY_SIZE →
      is_known_root t r =
        (decide (r ≠ 0) &&
          (scanSlots t.root_index).any fun k => decide (t.root_history k = some r))) := by
  constructor
  · unfold is_known_root
    rw [if_pos rfl]
  · intro hri
    exact is_known_root_eq_scan t r hri

/-- Witness for C4 at the genesis state of a height-2 tree and candidate 5. -/
theorem c4_is_known_root_scan_witness :
    is_known_root (new hW 0 2) 0 = false ∧
    ((new hW 0 2).root_index < ROOT_HISTORY_SIZE →
      is_known_root (new hW 0 2) 5 =
        (decide ((5 : Nat) ≠ 0) &&
          (scanSlots (new hW 0 2).root_index).any fun k =>
            decide ((new hW 0 2).root_history k = some 5))) :=
  c4_is_known_root_scan (new hW 0 2) 5

theorem two_mul_pow_pred (height : Nat) (hh : 1 ≤ height) :
    2 * 2 ^ (height - 1) = 2 ^ height := by
  have hs : height - 1 + 1 = height := by omega
  calc 2 * 2 ^ (height - 1) = 2 ^ (height - 1) * 2 := by ring
  _ = 2 ^ (height - 1 + 1) := (pow_succ 2 (height - 1)).symm
  _ = 2 ^ height := by rw [hs]

/-- Ring-buffer invariant along the trajectory from genesis: after n appends
the current slot is n mod ROOT_HISTORY_SIZE and slot s holds the root produced
by the latest append (or genesis) whose ordinal is congruent to s, when one
exists, and nothing otherwise. -/
theorem appendAll_hist (h : Nat → Nat → Nat) (z0 height : Nat) (hh : 1 ≤ height)
    (ps : List (Nat × Nat)) (hcap : ps.length ≤ 2 ^ (height - 1)) :
    ∀ n, n ≤ ps.length →
    ∃ t, appendAll h z0 height (some (new h z0 height)) (ps.take n) = some t ∧
      t.next_index = 2 * n ∧ t.subtrees.length = height ∧
      t.root_index = n % ROOT_HISTORY_SIZE ∧
      ∀ s, s < ROOT_HISTORY_SIZE →
        t.root_history s =
          if s ≤ n then some (rootAt h z0 height ps (n - (n - s) % ROOT_HISTORY_SIZE))
          else none := by
  have hR : ROOT_HISTORY_SIZE = 100 := rfl
  intro n
  induction n with
  | zero =>
    intro _
    refine ⟨new h z0 height, rfl, rfl, by simp [new], by rw [Nat.zero_mod]; rfl, ?_⟩
    intro s _
    by_cases hs0 : s = 0
    · subst hs0
      rw [if_pos (Nat.le_refl 0)]
      rfl
    · have hgen : (new h z0 height).root_history s = none := by
        show (if s = 0 then some (zeroHash h z0 height) else none) = none
        rw [if_neg hs0]
      rw [hgen, if_neg (by omega)]
  | succ n ih =>
    intro hn1
    obtain ⟨t, ht, hnext, hlen, hri, hhist⟩ := ih (by omega)
    have hlt : n < ps.length := by omega
    have hguard : t.next_index < 2 ^ height := by
      have hp2 := two_mul_pow_pred height hh
      omega
    obtain ⟨t1, hpair, f1, f2, f3, _, f5, f6⟩ :=
      append_pair_some_fields h z0 height t (ps.get ⟨n, hlt⟩).1 (ps.get ⟨n, hlt⟩).2 hlen hguard
    have htake : ps.take (n + 1) = ps.take n ++ [ps.get ⟨n, hlt⟩] := by
      rw [List.take_succ, List.getElem?_eq_getElem hlt]
      rfl
    have happ1 : appendAll h z0 height (some (new h z0 height)) (ps.take (n + 1)) = some t1 := by
      rw [htake, appendAll_append, ht, appendAll_cons, hpair]
      rfl
    have hri1 : t1.root_index = (n + 1) % ROOT_HISTORY_SIZE := by
      rw [f3, hri, hR]
      rw [hR] at hri
      omega
    have hrootAt : rootAt h z0 height ps (n + 1) =
        (specClimb (poseidon2 h) (zeroHash h z0) (List.range' 1 (height - 1)) t.subtrees
          (poseidon2 h (ps.get ⟨n, hlt⟩).1 (ps.get ⟨n, hlt⟩).2) (t.next_index / 2)).2 := by
      unfold rootAt
      rw [happ1]
      rw [show (some t1).bind root = root t1 from rfl, f5]
      rfl
    refine ⟨t1, happ1, by omega, f2, hri1, ?_⟩
    intro s hs
    by_cases hcur : s = (n + 1) % ROOT_HISTORY_SIZE
    · have hsv : t1.root_history s = root t1 := by
        rw [hcur, ← hri1]
        rfl
      rw [hsv, f5, ← hrootAt]
      rw [hR] at hcur ⊢
      rw [if_pos (by omega)]
      have hidx : n + 1 - (n + 1 - s) % 100 = n + 1 := by omega
      rw [hidx]
    · have hold : t1.root_history s = t.root_history s := f6 s (by rw [hri1]; exact hcur)
      rw [hold, hhist s hs]
      rw [hR] at hcur hs ⊢
      by_cases hsn : s ≤ n
      · rw [if_pos hsn, if_pos (by omega)]
        have hidx : n - (n - s) % 100 = n + 1 - (n + 1 - s) % 100 := by omega
        rw [hidx]
      · have hsn1 : ¬ s ≤ n + 1 := by omega
        rw [if_neg hsn, if_neg hsn1]

/-- C5: after ROOT_HISTORY_SIZE + k appends (k at least 1) from genesis,
is_known_root rejects every root that was current strictly more than
ROOT_HISTORY_SIZE appends ago (provided, as the cryptographic premise, that it
differs from the ROOT_HISTORY_SIZE roots still stored) and accepts each of the
ROOT_HISTORY_SIZE most recent roots, current root included (provided it is not
the reserved zero sentinel). -/
theorem c5_root_history_bound (h : Nat → Nat → Nat) (z0 height : Nat)
    (ps : List (Nat × Nat)) (hh : 1 ≤ height) (hcap : ps.length ≤ 2 ^ (height - 1))
    (hlong : ROOT_HISTORY_SIZE + 1 ≤ ps.length) :
    (∀ j, j + ROOT_HISTORY_SIZE + 1 ≤ ps.length →
      (∀ i, ps.length ≤ i + ROOT_HISTORY_SIZE - 1 → i ≤ ps.length →
        rootAt h z0 height ps i ≠ rootAt h z0 height ps j) →
      knownAfter h z0 height ps (rootAt h z0 height ps j) = false) ∧
    (∀ i, ps.length ≤ i + ROOT_HISTORY_SIZE - 1 → i ≤ ps.length →
      rootAt h z0 height ps i ≠ 0 →
      knownAfter h z0 height ps (rootAt h z0 height ps i) = true) := by
  have hR : ROOT_HISTORY_SIZE = 100 := rfl
  obtain ⟨t, ht, hnext, hlen, hri, hhist⟩ :=
    appendAll_hist h z0 height hh ps hcap ps.length (Nat.le_refl _)
  rw [List.take_length] at ht
  have hriR : t.root_index < ROOT_HISTORY_SIZE := by
    rw [hri]
    exact Nat.mod_lt _ (by decide)
  have hknown : ∀ r, knownAfter h z0 height ps r = is_known_root t r := by
    intro r
    unfold knownAfter
    rw [ht]
    rfl
  constructor
  · intro j hj hdist
    rw [hknown]
    rcases Bool.eq_false_or_eq_true (is_known_root t (rootAt h z0 height ps j)) with hb | hb
    · exfalso
      obtain ⟨_, s, hs, hsv⟩ := (is_known_root_iff t _ hriR).1 hb
      rw [hhist s hs] at hsv
      rw [hR] at hs hj
      by_cases hsn : s ≤ ps.length
      · rw [if_pos hsn] at hsv
        have hsv2 := Option.some.inj hsv
        refine hdist (ps.length - (ps.length - s) % ROOT_HISTORY_SIZE) ?_ ?_ hsv2
        · rw [hR]
          omega
        · omega
      · rw [if_neg hsn] at hsv
        exact absurd hsv (by simp)
    · exact hb
  · intro i h1 h2 hne0
    rw [hknown]
    rw [is_known_root_iff t _ hriR]
    refine ⟨hne0, i % ROOT_HISTORY_SIZE, Nat.mod_lt _ (by decide), ?_⟩
    have hsle : i % ROOT_HISTORY_SIZE ≤ ps.length := by
      have := Nat.mod_le i ROOT_HISTORY_SIZE
      omega
    rw [hhist (i % ROOT_HISTORY_SIZE) (Nat.mod_lt _ (by decide)), if_pos hsle]
    have hidx : ps.length - (ps.length - i % ROOT_HISTORY_SIZE) % ROOT_HISTORY_SIZE = i := by
      rw [hR] at h1 ⊢
      rw [hR] at hlong
      omega
    rw [hidx]

/-- Witness for C5: 101 pair appends into a height-8 tree. -/
theorem c5_root_history_bound_witness :
    (∀ j, j + ROOT_HISTORY_SIZE + 1 ≤ (List.replicate 101 ((0 : Nat), (0 : Nat))).length →
      (∀ i, (List.replicate 101 ((0 : Nat), (0 : Nat))).length ≤ i + ROOT_HISTORY_SIZE - 1 →
        i ≤ (List.replicate 101 ((0 : Nat), (0 : Nat))).length →
        rootAt hW 0 8 (List.replicate 101 ((0 : Nat), (0 : Nat))) i ≠
          rootAt hW 0 8 (List.replicate 101 ((0 : Nat), (0 : Nat))) j) →
      knownAfter hW 0 8 (List.replicate 101 ((0 : Nat), (0 : Nat)))
        (rootAt hW 0 8 (List.replicate 101 ((0 : Nat), (0 : Nat))) j) = false) ∧
    (∀ i, (List.replicate 101 ((0 : Nat), (0 : Nat))).length ≤ i + ROOT_HISTORY_SIZE - 1 →
      i ≤ (List.replicate 101 ((0 : Nat), (0 : Nat))).length →
      rootAt hW 0 8 (List.replicate 101 ((0 : Nat), (0 : Nat))) i ≠ 0 →
      knownAfter hW 0 8 (List.replicate 101 ((0 : Nat), (0 : Nat)))
        (rootAt hW 0 8 (List.replicate 101 ((0 : Nat), (0 : Nat))) i) = true) :=
  c5_root_history_bound hW 0 8 (List.replicate 101 ((0 : Nat), (0 : Nat)))
    (by decide) (by decide) (by decide)

/-- Witness for C10: stored commitment 7 at index 1 of a two-leaf tree. -/
theorem c10_commitment_mismatch_witness :
    ((∃ resp, getMerklePath hW 0 2 [4, 7] 1 7 = .ok resp) ↔
      ([4, 7] : List Nat).getD (1 : Int).toNat 0 = 7) ∧
    (([4, 7] : List Nat).getD (1 : Int).toNat 0 ≠ 7 →
      getMerklePath hW 0 2 [4, 7] 1 7 =
        .error ("Commitment mismatch at index " ++ toString (1 : Int))) :=
  c10_commitment_mismatch hW 0 2 [4, 7] 1 7 (by decide) (by decide)

theorem subRoot_nil (h : Nat → Nat → Nat) (z0 : Nat) :
    ∀ i, subRoot h z0 i [] = zeroHash h z0 i := by
  intro i
  induction i with
  | zero => rfl
  | succ i ih =>
    simp only [subRoot, List.take_nil, List.drop_nil, ih]
    rfl

theorem subRoot_lt (h : Nat → Nat → Nat) (z0 : Nat) (hP : ∀ x y, h x y < P)
    (hz0 : z0 < P) : ∀ (i : Nat) (xs : List Nat), (∀ x ∈ xs, x < P) →
    subRoot h z0 i xs < P := by
  intro i
  induction i with
  | zero =>
    intro xs hxs
    cases xs with
    | nil => exact hz0
    | cons a l => exact hxs a (List.mem_cons_self a l)
  | succ i _ =>
    intro xs _
    exact hP _ _

theorem chunk_append (w u : List Nat) (k i : Nat) (hki : (k + 1) * 2 ^ i ≤ w.length) :
    chunk (w ++ u) k i = chunk w k i := by
  have hx : (k + 1) * 2 ^ i = k * 2 ^ i + 2 ^ i := by ring
  rw [hx] at hki
  have h1 : k * 2 ^ i ≤ w.length := le_trans (Nat.le_add_right _ _) hki
  unfold chunk
  rw [List.drop_append_of_le_length h1]
  rw [List.take_append_of_le_length (by
    rw [List.length_drop]
    exact Nat.le_sub_of_add_le (by rw [Nat.add_comm]; exact hki))]

theorem specClimb_bounds (h : Nat → Nat → Nat) (z : Nat → Nat)
    (hP : ∀ x y, h x y < P) :
    ∀ (levels subs : List Nat) (hash idx : Nat), (∀ x ∈ subs, x < P) → hash < P →
    ∀ x ∈ (specClimb h z levels subs hash idx).1, x < P := by
  intro levels
  induction levels with
  | nil => intro subs hash idx hsub _; exact hsub
  | cons i rest ih =>
    intro subs hash idx hsub hhash
    unfold specClimb
    by_cases hpar : idx % 2 = 0
    · rw [if_pos hpar]
      refine ih _ _ _ ?_ (hP _ _)
      intro x hx
      rcases mem_of_mem_set hash subs i x hx with hx | hx
      · exact hsub x hx
      · exact hx ▸ hhash
    · rw [if_neg hpar]
      exact ih _ _ _ hsub (hP _ _)

/-- Core climb invariant: starting at level i with the running hash equal to
the dense root of the tail block of the extended leaf list w2, the spec climb
up to the top computes the dense root of w2 and re-establishes the cached
subtree invariant for the new leaf count. -/
theorem climb (h : Nat → Nat → Nat) (z0 height : Nat) (w2 : List Nat) (m : Nat)
    (hm2 : w2.length = m + 2) (hme : m % 2 = 0) (hcap : m + 2 ≤ 2 ^ height) :
    ∀ (k i : Nat), i + k = height → 1 ≤ i →
    ∀ (subs : List Nat) (hash : Nat), subs.length = height →
    (∀ j, i ≤ j → j < height → (m / 2 ^ j) % 2 = 1 →
      subs.getD j 0 = subRoot h z0 j (chunk w2 (m / 2 ^ j - 1) j)) →
    hash = subRoot h z0 i (w2.drop (m / 2 ^ i * 2 ^ i)) →
    (specClimb h (zeroHash h z0) (List.range' i k) subs hash (m / 2 ^ i)).2 =
        subRoot h z0 height w2 ∧
    (specClimb h (zeroHash h z0) (List.range' i k) subs hash (m / 2 ^ i)).1.length = height ∧
    (∀ j, i ≤ j → j < height → ((m + 2) / 2 ^ j) % 2 = 1 →
      (specClimb h (zeroHash h z0) (List.range' i k) subs hash (m / 2 ^ i)).1.getD j 0 =
        subRoot h z0 j (chunk w2 ((m + 2) / 2 ^ j - 1) j)) ∧
    (∀ j, j < i →
      (specClimb h (zeroHash h z0) (List.range' i k) subs hash (m / 2 ^ i)).1.getD j 0 =
        subs.getD j 0) := by
  intro k
  induction k with
  | zero =>
    intro i hik h1 subs hash hlen hsub hhash
    have hieq : i = height := by omega
    subst hieq
    have hm0 : m / 2 ^ i = 0 := Nat.div_eq_of_lt (by omega)
    refine ⟨?_, hlen, ?_, fun j _ => rfl⟩
    · show hash = subRoot h z0 i w2
      rw [hhash, hm0]
      simp [List.drop_zero]
    · intro j hj1 hj2 _
      omega
  | succ k ih =>
    intro i hik h1 subs hash hlen hsub hhash
    -- arithmetic facts about the current level
    have hq : (0 : Nat) < 2 ^ i := Nat.pos_pow_of_pos _ (by omega)
    have hq2 : 2 ∣ 2 ^ i := dvd_pow_self 2 (by omega)
    have hq2' : 2 ≤ 2 ^ i := by
      calc (2 : Nat) = 2 ^ 1 := by norm_num
      _ ≤ 2 ^ i := Nat.pow_le_pow_right (by omega) (by omega)
    have hdm : m / 2 ^ i * 2 ^ i + m % 2 ^ i = m := by
      rw [Nat.mul_comm]
      exact Nat.div_add_mod m (2 ^ i)
    have hr2 : m % 2 ^ i % 2 = m % 2 := Nat.mod_mod_of_dvd m hq2
    have hrlt : m % 2 ^ i < 2 ^ i := Nat.mod_lt _ hq
    have hdiv : m / 2 ^ i / 2 = m / 2 ^ (i + 1) := by
      rw [Nat.div_div_eq_div_mul, ← pow_succ]
    have hxs_len : (w2.drop (m / 2 ^ i * 2 ^ i)).length = m + 2 - m / 2 ^ i * 2 ^ i := by
      rw [List.length_drop, hm2]
    have hxs_le : (w2.drop (m / 2 ^ i * 2 ^ i)).length ≤ 2 ^ i := by
      rw [hxs_len]
      omega
    have hcup : (m + 2) / 2 ^ i ≤ m / 2 ^ i + 1 := by
      have h1' : m + 2 ≤ m + 2 ^ i := by omega
      have h2' := Nat.div_le_div_right (c := 2 ^ i) h1'
      rw [Nat.add_div_right m hq] at h2'
      exact h2'
    have hcdown : m / 2 ^ i ≤ (m + 2) / 2 ^ i := Nat.div_le_div_right (by omega)
    have hik' : (i + 1) + k = height := by omega
    have hrange : List.range' i (k + 1) = i :: List.range' (i + 1) k := rfl
    rw [hrange]
    by_cases hc : m / 2 ^ i % 2 = 0
    · -- even position: cache the hash, pair with the zero hash on the right
      have hstep : specClimb h (zeroHash h z0) (i :: List.range' (i + 1) k) subs hash
          (m / 2 ^ i) =
          specClimb h (zeroHash h z0) (List.range' (i + 1) k) (subs.set i hash)
            (h hash (zeroHash h z0 i)) (m / 2 ^ i / 2) := by
        simp only [specClimb]
        rw [if_pos hc]
      rw [hstep, hdiv]
      have hidx : m / 2 ^ (i + 1) * 2 ^ (i + 1) = m / 2 ^ i * 2 ^ i := by
        rw [← hdiv, pow_succ]
        have hc2 : m / 2 ^ i / 2 * 2 = m / 2 ^ i := by omega
        calc m / 2 ^ i / 2 * (2 ^ i * 2) = m / 2 ^ i / 2 * 2 * 2 ^ i := by ring
        _ = m / 2 ^ i * 2 ^ i := by rw [hc2]
      have hhash' : h hash (zeroHash h z0 i) =
          subRoot h z0 (i + 1) (w2.drop (m / 2 ^ (i + 1) * 2 ^ (i + 1))) := by
        rw [hidx]
        simp only [subRoot]
        rw [List.take_of_length_le hxs_le, List.drop_eq_nil_of_le hxs_le, subRoot_nil,
          ← hhash]
      obtain ⟨hout, hlen', hsub', hstab'⟩ := ih (i + 1) hik' (by omega) (subs.set i hash)
        (h hash (zeroHash h z0 i))
        (by rw [List.length_set]; exact hlen)
        (by
          intro j hj1 hj2 hj3
          rw [getD_set_ne hash 0 subs i j (by omega)]
          exact hsub j (by omega) hj2 hj3)
        hhash'
      refine ⟨hout, hlen', ?_, ?_⟩
      · intro j hj1 hj2 hj3
        rcases Nat.lt_or_ge i j with hij | hij
        · exact hsub' j (by omega) hj2 hj3
        · have hji : j = i := by omega
          subst hji
          have hceq : (m + 2) / 2 ^ j = m / 2 ^ j + 1 := by omega
          have hfull : (m / 2 ^ j + 1) * 2 ^ j ≤ m + 2 := by
            have := (Nat.le_div_iff_mul_le hq).1 (by omega : m / 2 ^ j + 1 ≤ (m + 2) / 2 ^ j)
            exact this
          have hxs_eq : (w2.drop (m / 2 ^ j * 2 ^ j)).length = 2 ^ j := by
            rw [hxs_len]
            have hx : (m / 2 ^ j + 1) * 2 ^ j = m / 2 ^ j * 2 ^ j + 2 ^ j := by ring
            omega
          rw [hstab' j (by omega), getD_set_self hash 0 subs j (by omega)]
          rw [hceq]
          have hsimp : m / 2 ^ j + 1 - 1 = m / 2 ^ j := Nat.add_sub_cancel (m / 2 ^ j) 1
          rw [hsimp]
          unfold chunk
          rw [List.take_of_length_le (by rw [hxs_eq])]
          exact hhash
      · intro j hj
        rw [hstab' j (by omega), getD_set_ne hash 0 subs i j (by omega)]
    · -- odd position: hash the cached subtree on the left
      have hcodd : m / 2 ^ i % 2 = 1 := by omega
      have hstep : specClimb h (zeroHash h z0) (i :: List.range' (i + 1) k) subs hash
          (m / 2 ^ i) =
          specClimb h (zeroHash h z0) (List.range' (i + 1) k) subs
            (h (subs.getD i 0) hash) (m / 2 ^ i / 2) := by
        simp only [specClimb]
        rw [if_neg hc]
      rw [hstep, hdiv]
      have hcge1 : 1 ≤ m / 2 ^ i := by
        rcases Nat.eq_zero_or_pos (m / 2 ^ i) with h0 | h0
        · rw [h0] at hcodd
          simp at hcodd
        · exact h0
      have hidx : m / 2 ^ (i + 1) * 2 ^ (i + 1) = (m / 2 ^ i - 1) * 2 ^ i := by
        rw [← hdiv, pow_succ]
        have hc2 : m / 2 ^ i / 2 * 2 = m / 2 ^ i - 1 := by
          have h' := hcodd
          generalize m / 2 ^ i = c at h' ⊢
          omega
        calc m / 2 ^ i / 2 * (2 ^ i * 2) = m / 2 ^ i / 2 * 2 * 2 ^ i := by ring
        _ = (m / 2 ^ i - 1) * 2 ^ i := by rw [hc2]
      have hdrop2 : (w2.drop ((m / 2 ^ i - 1) * 2 ^ i)).drop (2 ^ i) =
          w2.drop (m / 2 ^ i * 2 ^ i) := by
        rw [List.drop_drop]
        have hx : (m / 2 ^ i - 1) * 2 ^ i + 2 ^ i = m / 2 ^ i * 2 ^ i := by
          have hy : (m / 2 ^ i - 1 + 1) = m / 2 ^ i := by omega
          calc (m / 2 ^ i - 1) * 2 ^ i + 2 ^ i = (m / 2 ^ i - 1 + 1) * 2 ^ i := by ring
          _ = m / 2 ^ i * 2 ^ i := by rw [hy]
        rw [hx]
      have hhash' : h (subs.getD i 0) hash =
          subRoot h z0 (i + 1) (w2.drop (m / 2 ^ (i + 1) * 2 ^ (i + 1))) := by
        rw [hidx]
        simp only [subRoot]
        rw [hdrop2, ← hhash, hsub i (by omega) (by omega) hcodd]
        rfl
      obtain ⟨hout, hlen', hsub', hstab'⟩ := ih (i + 1) hik' (by omega) subs
        (h (subs.getD i 0) hash) hlen
        (fun j hj1 hj2 hj3 => hsub j (by omega) hj2 hj3)
        hhash'
      refine ⟨hout, hlen', ?_, ?_⟩
      · intro j hj1 hj2 hj3
        rcases Nat.lt_or_ge i j with hij | hij
        · exact hsub' j (by omega) hj2 hj3
        · have hji : j = i := by omega
          subst hji
          have hceq : (m + 2) / 2 ^ j = m / 2 ^ j := by omega
          rw [hstab' j (by omega), hceq]
          exact hsub j (by omega) (by omega) hcodd
      · intro j hj
        exact hstab' j (by omega)

theorem TreeInv_new (h : Nat → Nat → Nat) (z0 height : Nat) (hP : ∀ x y, h x y < P)
    (hz0 : z0 < P) : TreeInv h z0 height [] (new h z0 height) := by
  refine ⟨rfl, rfl, Nat.zero_le _, by simp [new], ?_, by simp, ?_, ?_, ?_⟩
  · intro x hx
    simp only [new] at hx
    obtain ⟨i, _, rfl⟩ := List.mem_map.1 hx
    exact zeroHash_lt h z0 hP hz0 i
  · show (0 : Nat) < ROOT_HISTORY_SIZE
    decide
  · show some (zeroHash h z0 height) = some (subRoot h z0 height [])
    rw [subRoot_nil]
  · intro j _ _ hj
    simp at hj

theorem TreeInv_append (h : Nat → Nat → Nat) (z0 height : Nat) (hP : ∀ x y, h x y < P)
    (hz0 : z0 < P) (hh : 1 ≤ height) (w : List Nat) (t : MerkleTree)
    (hinv : TreeInv h z0 height w t) (a b : Nat) (ha : a < P) (hb : b < P)
    (hcap : w.length + 2 ≤ 2 ^ height) :
    ∃ t1, append_pair h z0 height t a b = some t1 ∧
      TreeInv h z0 height (w ++ [a, b]) t1 := by
  obtain ⟨e1, e2, e3, e4, e5, e6, e7, e8, e9⟩ := hinv
  have hguard : t.next_index < 2 ^ height := by omega
  obtain ⟨t1, hpair, f1, f2, f3, f4, f5, f6⟩ :=
    append_pair_some_fields h z0 height t a b e4 hguard
  have hp2 : poseidon2 h a b = h a b := by
    unfold poseidon2
    rw [Nat.mod_eq_of_lt ha, Nat.mod_eq_of_lt hb]
  have hred := specClimb_reduce h (zeroHash h z0) hP (zeroHash_lt h z0 hP hz0)
    (List.range' 1 (height - 1)) t.subtrees (h a b) (t.next_index / 2) e5 (hP a b)
  rw [hp2, hred] at f4 f5
  rw [e1] at f4 f5
  rw [show w.length / 2 = w.length / 2 ^ 1 from by norm_num] at f4 f5
  have hw2len : (w ++ [a, b]).length = w.length + 2 := by simp
  have hone : (1 : Nat) + (height - 1) = height := by omega
  have hdropw : (w ++ [a, b]).drop (w.length / 2 ^ 1 * 2 ^ 1) = [a, b] := by
    have hx : w.length / 2 ^ 1 * 2 ^ 1 = w.length := by
      have h21 : (2 : Nat) ^ 1 = 2 := by norm_num
      rw [h21]
      omega
    rw [hx, List.drop_append_of_le_length (Nat.le_refl _), List.drop_length]
    rfl
  have hhash1 : h a b = subRoot h z0 1 ((w ++ [a, b]).drop (w.length / 2 ^ 1 * 2 ^ 1)) := by
    rw [hdropw]
    rfl
  have hsubhyp : ∀ j, 1 ≤ j → j < height → (w.length / 2 ^ j) % 2 = 1 →
      t.subtrees.getD j 0 = subRoot h z0 j (chunk (w ++ [a, b]) (w.length / 2 ^ j - 1) j) := by
    intro j hj1 hj2 hj3
    have hge1 : 1 ≤ w.length / 2 ^ j := by
      rcases Nat.eq_zero_or_pos (w.length / 2 ^ j) with h0 | h0
      · rw [h0] at hj3
        simp at hj3
      · exact h0
    have hbound : (w.length / 2 ^ j - 1 + 1) * 2 ^ j ≤ w.length := by
      rw [Nat.sub_add_cancel hge1]
      exact Nat.div_mul_le_self _ _
    rw [chunk_append w [a, b] _ j hbound]
    exact e9 j hj1 hj2 hj3
  obtain ⟨hout, hlen2, hsub2, _⟩ := climb h z0 height (w ++ [a, b]) w.length hw2len e2
    (by omega) (height - 1) 1 hone (Nat.le_refl 1) t.subtrees (h a b) e4 hsubhyp hhash1
  refine ⟨t1, hpair, ?_, ?_, ?_, ?_, ?_, ?_, ?_, ?_, ?_⟩
  · rw [f1, e1, hw2len]
  · rw [hw2len]
    omega
  · rw [hw2len]
    omega
  · exact f2
  · rw [f4]
    exact specClimb_bounds h (zeroHash h z0) hP _ _ _ _ e5 (hP a b)
  · intro x hx
    rcases List.mem_append.1 hx with hx | hx
    · exact e6 x hx
    · rcases List.mem_cons.1 hx with hx | hx
      · exact hx ▸ ha
      · rcases List.mem_cons.1 hx with hx | hx
        · exact hx ▸ hb
        · simp at hx
  · rw [f3]
    exact Nat.mod_lt _ (by decide)
  · rw [f5, hout]
  · intro j hj1 hj2 hj3
    rw [hw2len] at hj3 ⊢
    rw [f4]
    exact hsub2 j hj1 hj2 hj3

theorem TreeInv_appendAll (h : Nat → Nat → Nat) (z0 height : Nat) (hP : ∀ x y, h x y < P)
    (hz0 : z0 < P) (hh : 1 ≤ height) :
    ∀ (ps : List (Nat × Nat)) (w : List Nat) (t : MerkleTree),
    TreeInv h z0 height w t → (∀ p ∈ ps, p.1 < P ∧ p.2 < P) →
    w.length + 2 * ps.length ≤ 2 ^ height →
    ∃ t1, appendAll h z0 height (some t) ps = some t1 ∧
      TreeInv h z0 height (w ++ leavesOf ps) t1 := by
  intro ps
  induction ps with
  | nil =>
    intro w t hinv _ _
    refine ⟨t, rfl, ?_⟩
    rw [show leavesOf [] = ([] : List Nat) from rfl, List.append_nil]
    exact hinv
  | cons p rest ih =>
    intro w t hinv hps hcap
    obtain ⟨t1, hpair, hinv1⟩ := TreeInv_append h z0 height hP hz0 hh w t hinv p.1 p.2
      (hps p (List.mem_cons_self p rest)).1 (hps p (List.mem_cons_self p rest)).2
      (by simp only [List.length_cons] at hcap; omega)
    rw [appendAll_cons, hpair]
    obtain ⟨t2, happ, hinv2⟩ := ih (w ++ [p.1, p.2]) t1 hinv1
      (fun q hq => hps q (List.mem_cons_of_mem p hq))
      (by
        simp only [List.length_cons] at hcap
        simp only [List.length_append, List.length_cons, List.length_nil]
        omega)
    refine ⟨t2, happ, ?_⟩
    have hassoc : (w ++ [p.1, p.2]) ++ leavesOf rest = w ++ leavesOf (p :: rest) := by
      rw [List.append_assoc]
      rfl
    rw [← hassoc]
    exact hinv2

/-- C1: for identical commitment sequences (field elements, inserted in
pairs), the off-chain rebuilt dense tree (the replay the path-derivation
service performs over the stored commitments, whether from a cold cache or
from a cached snapshot plus the delta of newer commitments, both of which
build the dense tree over the same full ordered list) has a root bit-identical
to the root held by the on-chain incremental tree after appending the same
commitments via append_pair. -/
theorem c1_offchain_onchain_root_equivalence (h : Nat → Nat → Nat) (z0 height : Nat)
    (hP : ∀ x y, h x y < P) (hz0 : z0 < P) (hh : 1 ≤ height) (ps : List (Nat × Nat))
    (hps : ∀ p ∈ ps, p.1 < P ∧ p.2 < P) (hcap : 2 * ps.length ≤ 2 ^ height) :
    ∃ t, appendAll h z0 height (some (new h z0 height)) ps = some t ∧
      root t = some (offchainRoot h z0 height (leavesOf ps)) := by
  obtain ⟨t, happ, hinv⟩ := TreeInv_appendAll h z0 height hP hz0 hh ps []
    (new h z0 height) (TreeInv_new h z0 height hP hz0) hps (by simpa using hcap)
  refine ⟨t, happ, ?_⟩
  have hroot := hinv.2.2.2.2.2.2.2.1
  rw [List.nil_append] at hroot
  exact hroot

/-- Witness for C1: the end-to-end height-2 scenario of the spec, leaves
5, 7, 11, 13. -/
theorem c1_offchain_onchain_root_equivalence_witness :
    ∃ t, appendAll hW 0 2 (some (new hW 0 2)) [(5, 7), (11, 13)] = some t ∧
      root t = some (offchainRoot hW 0 2 (leavesOf [(5, 7), (11, 13)])) :=
  c1_offchain_onchain_root_equivalence hW 0 2 hW_lt (by decide) (by decide)
    [(5, 7), (11, 13)] (by decide) (by decide)

end Vortex
